import Mathlib

/-!
Verification development for the veritas retrieval-and-grounding core.

The embedding covers the two core modules:

* `lib/levenshtein.py`: the two-row Levenshtein implementation,
  the similarity ratio, fuzzy alignment of a generated answer against
  source sentences, and the grounded-answer builder.
* `lib/bm25.py`: the `BM25Ranker` class with its mutable index state,
  preprocessing, IDF computation, BM25+ scoring, query expansion and
  page ranking, plus the top-K short-circuit in the calling code
  (`lib/agents.py`, `VeritasCrewBuilder.build`).

External collaborators that are not part of this repository (NLTK word
and sentence tokenizers, the Snowball stemmer, the stopword list, and
the transcendental `math.log`) are modelled as parameters collected in
`TextEnv` together with an `Option`-valued sentence splitter (the
`try/except` around `sent_tokenize`).  Python floats are idealized as
rationals.  A Python `ZeroDivisionError` is modelled by returning
`none`.
-/

set_option linter.unusedVariables false
set_option maxHeartbeats 1000000

/-! ### lib/levenshtein.py : levenshtein_distance (two-row algorithm) -/

/-- Substitution cost used by the edit-distance recurrences. -/
def costN (a b : Char) : ℕ := if a = b then 0 else 1

/-- Reference recursive Levenshtein distance (textbook recursion, used as
the specification against which the two-row implementation is proved). -/
def levRec : List Char → List Char → ℕ
  | [], ys => ys.length
  | _x :: xs, [] => xs.length + 1
  | x :: xs, y :: ys =>
      min (levRec xs (y :: ys) + 1)
        (min (levRec (x :: xs) ys + 1) (levRec xs ys + costN x y))
termination_by xs ys => xs.length + ys.length

/-- Inner loop of the two-row algorithm: computes the tail of the current
row, carrying the value to the left (`current_row[j-1]`), the diagonal
value (`previous_row[j-1]`), the remaining characters of `s2` and the
remaining entries of the previous row (`previous_row[j], ...`). -/
def rowStep (c : Char) : ℕ → ℕ → List Char → List ℕ → List ℕ
  | left, diag, y :: ys, pu :: ps =>
      let v := min (pu + 1) (min (left + 1) (diag + costN c y))
      v :: rowStep c v pu ys ps
  | _, _, _, _ => []

/-- One iteration of the outer loop: builds `current_row` from
`previous_row`, with `current_row[0] = i`. -/
def nextRow (c : Char) (s2 : List Char) (prev : List ℕ) (i : ℕ) : List ℕ :=
  match prev with
  | [] => []
  | p0 :: ps => i :: rowStep c i p0 s2 ps

/-- Outer loop over the characters of `s1` (`i` starts at 1). -/
def levLoop (s2 : List Char) : List Char → List ℕ → ℕ → List ℕ
  | [], prev, _ => prev
  | c :: rest, prev, i => levLoop s2 rest (nextRow c s2 prev i) (i + 1)

/-- The two-row computation: start from `list(range(len(s2)+1))`, run the
outer loop, read off `previous_row[len(s2)]`. -/
def levImpl (s1 s2 : List Char) : ℕ :=
  (levLoop s2 s1 (List.range (s2.length + 1)) 1).getD s2.length 0

/-- `levenshtein_distance` from lib/levenshtein.py, including the three
trivial-case shortcuts. -/
def levenshtein_distance (s1 s2 : String) : ℕ :=
  if s1 = s2 then 0
  else if s1.length = 0 then s2.length
  else if s2.length = 0 then s1.length
  else levImpl s1.data s2.data

/-- `levenshtein_ratio` from lib/levenshtein.py:
`1 - distance / max(len(s1), len(s2))`, with `1.0` when both are empty. -/
def levenshtein_ratio (s1 s2 : String) : ℚ :=
  let distance := levenshtein_distance s1 s2
  let max_len := max s1.length s2.length
  if max_len = 0 then 1 else 1 - (distance : ℚ) / (max_len : ℚ)

/-- Proof scaffolding: the list of prefix distances
`levRec a (u ++ v.take 1), levRec a (u ++ v.take 2), ...`. -/
def prefixRowFrom (a : List Char) : List Char → List Char → List ℕ
  | _u, [] => []
  | u, y :: v => levRec a (u ++ [y]) :: prefixRowFrom a (u ++ [y]) v

/-- Proof scaffolding: the full dynamic-programming row for prefix `a`. -/
def prefixRow (a s2 : List Char) : List ℕ := levRec a [] :: prefixRowFrom a [] s2

/-! ### lib/levenshtein.py : find_closest_text and align_response -/

/-- `np.argmax` on the tail of a score list: carries best index, best
value and current index; a strictly greater value replaces the best
(first maximal index wins, as in numpy). -/
def argmaxAux : ℕ → ℚ → ℕ → List ℚ → ℕ × ℚ
  | bi, bv, _, [] => (bi, bv)
  | bi, bv, i, v :: rest => if bv < v then argmaxAux i v (i + 1) rest else argmaxAux bi bv (i + 1) rest

/-- Index of the first maximal element (`np.argmax`); 0 on the empty list. -/
def argmaxFirst : List ℚ → ℕ
  | [] => 0
  | v :: rest => (argmaxAux 0 v 1 rest).1

/-- `find_closest_text` from lib/levenshtein.py: best candidate index and
its similarity, `(-1, best)` when the best score is below the threshold,
`(-1, 0.0)` on an empty candidate list. -/
def find_closest_text (text : String) (candidates : List String) (threshold : ℚ) : ℤ × ℚ :=
  match candidates with
  | [] => (-1, 0)
  | _ :: _ =>
      let scores := candidates.map (fun cand => levenshtein_ratio text cand)
      let max_score_idx := argmaxFirst scores
      let max_score := scores.getD max_score_idx 0
      if threshold ≤ max_score then ((max_score_idx : ℤ), max_score) else (-1, max_score)

/-- The explicit re-scan loop of `align_response` (strict improvement,
starting from `(-1, 0)`), over the enumerated source sentences. -/
def rescanAux (text : String) : ℤ → ℚ → ℕ → List String → ℤ × ℚ
  | bi, bs, _, [] => (bi, bs)
  | bi, bs, i, s :: rest =>
      let current := levenshtein_ratio text s
      if bs < current then rescanAux text (i : ℤ) current (i + 1) rest
      else rescanAux text bi bs (i + 1) rest

/-- The per-sentence alignment record produced by `align_response`. -/
structure AlignmentRecord where
  generated : String
  source : Option String
  similarity : ℚ
  aligned : Bool
deriving DecidableEq

/-! ### lib/levenshtein.py : clean_text -/

/-- The apostrophe character, as a string. -/
def apos : String := String.mk [Char.ofNat 39]

/-- The escape-sequence replacement table of `clean_text`, in source
(insertion) order. -/
def cleanReplacements : List (String × String) :=
  [("\\n", " "), ("\\t", " "), ("\\r", ""), ("\\\"", "\""),
   ("\\" ++ apos, apos), ("\\\\", "\\"),
   ("\\u00e9", "é"), ("\\u00e8", "è"), ("\\u00ea", "ê"), ("\\u00e0", "à"),
   ("\\u00e2", "â"), ("\\u00e7", "ç"), ("\\u00f4", "ô"), ("\\u00fb", "û"),
   ("\\u00ee", "î"), ("\\u00ef", "ï"), ("\\u00fc", "ü"), ("\\u0153", "œ"),
   ("\\u2019", apos), ("\\u2026", "...")]

/-- `str.replace` with a fixed nonempty pattern: leftmost, non-overlapping.
The fuel argument (instantiated with the length of the list, which bounds
the number of steps) keeps the recursion structural. -/
def replaceAllAux (p : Char) (ps sub : List Char) : ℕ → List Char → List Char
  | _, [] => []
  | 0, l => l
  | fuel + 1, c :: rest =>
      if (p :: ps).isPrefixOf (c :: rest) then
        sub ++ replaceAllAux p ps sub fuel ((c :: rest).drop (ps.length + 1))
      else
        c :: replaceAllAux p ps sub fuel rest

/-- `str.replace` on character lists. -/
def replaceAll (pat sub l : List Char) : List Char :=
  match pat with
  | [] => l
  | p :: ps => replaceAllAux p ps sub l.length l

/-- Hexadecimal digit test for the `\\u....` escape regex. -/
def isHexDigit (c : Char) : Bool :=
  c.isDigit || decide (97 ≤ c.toNat ∧ c.toNat ≤ 102) || decide (65 ≤ c.toNat ∧ c.toNat ≤ 70)

/-- `re.sub` with pattern a backslash, a letter u and four hex digits,
replaced by the empty string (leftmost, non-overlapping scan).  The fuel
argument (instantiated with the length of the list) keeps the recursion
structural. -/
def stripUnicodeEsc : ℕ → List Char → List Char
  | _, [] => []
  | 0, l => l
  | fuel + 1, '\\' :: 'u' :: a :: b :: c :: d :: rest =>
      if isHexDigit a && isHexDigit b && isHexDigit c && isHexDigit d then
        stripUnicodeEsc fuel rest
      else '\\' :: stripUnicodeEsc fuel ('u' :: a :: b :: c :: d :: rest)
  | fuel + 1, c :: rest => c :: stripUnicodeEsc fuel rest

/-- `re.sub` collapsing every whitespace run to a single space. -/
def collapseWs : List Char → List Char
  | [] => []
  | [c] => if c.isWhitespace then [' '] else [c]
  | c :: d :: rest =>
      if c.isWhitespace then
        if d.isWhitespace then collapseWs (d :: rest) else ' ' :: collapseWs (d :: rest)
      else c :: collapseWs (d :: rest)

/-- The punctuation class of the two normalization regexes in `clean_text`. -/
def isClosePunct (c : Char) : Bool :=
  c == ',' || c == '.' || c == ';' || c == ':' || c == '!' || c == '?' || c == ')'

/-- `re.sub` removing whitespace runs directly before a closing-punctuation
character (processing the suffix first: a whitespace character is dropped
exactly when the processed suffix starts with such punctuation). -/
def stripWsBeforePunct : List Char → List Char
  | [] => []
  | c :: rest =>
      let tail := stripWsBeforePunct rest
      if c.isWhitespace then
        match tail with
        | [] => [c]
        | p :: ps => if isClosePunct p then p :: ps else c :: p :: ps
      else c :: tail

/-- `re.sub` inserting a space after closing punctuation that is not
followed by whitespace or the end of the string. -/
def addSpaceAfterPunct : List Char → List Char
  | [] => []
  | c :: rest =>
      if isClosePunct c then
        match rest with
        | [] => [c]
        | d :: _ =>
            if d.isWhitespace then c :: addSpaceAfterPunct rest
            else c :: ' ' :: addSpaceAfterPunct rest
      else c :: addSpaceAfterPunct rest

/-- `str.strip` on character lists. -/
def trimChars (l : List Char) : List Char :=
  ((l.dropWhile Char.isWhitespace).reverse.dropWhile Char.isWhitespace).reverse

/-- `str.strip` on strings. -/
def stripStr (s : String) : String := String.mk (trimChars s.data)

/-- `clean_text` from lib/levenshtein.py. -/
def clean_text (text : String) : String :=
  let t0 := cleanReplacements.foldl (fun s pr => String.mk (replaceAll pr.1.data pr.2.data s.data)) text
  let t1 := stripUnicodeEsc t0.data.length t0.data
  let t2 := collapseWs t1
  let t3 := stripWsBeforePunct t2
  let t4 := addSpaceAfterPunct t3
  String.mk (trimChars t4)

/-- `str.split` on the period character (keeps empty fragments, like
Python `split`). -/
def splitOnDotAux : List Char → List Char → List (List Char)
  | acc, [] => [acc.reverse]
  | acc, c :: rest =>
      if c = '.' then acc.reverse :: splitOnDotAux [] rest
      else splitOnDotAux (c :: acc) rest

/-- The loop body of `align_response`: the record built for one generated
sentence against the source sentences. -/
def alignOne (resp_sent : String) (source_sentences : List String)
    (threshold : ℚ) : AlignmentRecord :=
  let fc := find_closest_text resp_sent source_sentences threshold
  if 0 ≤ fc.1 then
    { generated := resp_sent, source := some (source_sentences.getD fc.1.toNat ""),
      similarity := fc.2, aligned := true }
  else
    let best := rescanAux resp_sent (-1) 0 0 source_sentences
    if 0 ≤ best.1 ∧ 2/5 ≤ best.2 then
      { generated := resp_sent, source := some (source_sentences.getD best.1.toNat ""),
        similarity := best.2, aligned := false }
    else
      { generated := resp_sent, source := none,
        similarity := if 0 ≤ best.1 then best.2 else 0, aligned := false }

/-- `align_response` from lib/levenshtein.py.  `sentSplit` models the NLTK
`sent_tokenize` call: `some f` is a successful import of the external
tokenizer, `none` is the `except` fallback that splits on periods. -/
def align_response (sentSplit : Option (String → List String)) (response : String)
    (source_sentences : List String) (threshold : ℚ) : List AlignmentRecord :=
  if response = "" ∨ source_sentences = [] then []
  else
    let cleaned := clean_text response
    let response_sentences :=
      match sentSplit with
      | some f => f cleaned
      | none =>
          ((splitOnDotAux [] cleaned.data).map (fun cs => stripStr (String.mk cs))).filter
            (fun s => 10 < s.length)
    let response_sentences := (response_sentences.map stripStr).filter (fun s => 10 < s.length)
    response_sentences.map (fun resp_sent => alignOne resp_sent source_sentences threshold)

/-! ### lib/levenshtein.py : build_factual_response -/

/-- The fixed refusal string returned when nothing can be grounded. -/
def refusalMsg : String :=
  "Impossible de répondre à cette question en se basant uniquement sur le document fourni."

/-- Python truthiness of the `source` field (`None` and the empty string
are falsy). -/
def truthySource : Option String → Bool
  | none => false
  | some s => !(s == "")

/-- Stable descending insertion (ties keep the existing element first),
modelling Python list.sort with reverse=True on the similarity key. -/
def insertDescPair (p : String × ℚ) : List (String × ℚ) → List (String × ℚ)
  | [] => [p]
  | q :: rest => if q.2 < p.2 then p :: q :: rest else q :: insertDescPair p rest

/-- Stable sort by similarity, descending. -/
def sortBySimDesc (l : List (String × ℚ)) : List (String × ℚ) :=
  l.foldl (fun acc p => insertDescPair p acc) []

/-- Join parts with a period and a space, adding a trailing period. -/
def joinWithPeriod (parts : List String) : String := String.intercalate ". " parts ++ "."

/-- `build_factual_response` from lib/levenshtein.py. -/
def build_factual_response (alignment_results : List AlignmentRecord) : String :=
  let aligned_parts := alignment_results.filterMap (fun r =>
    match r.source with
    | some s => if r.aligned = true ∧ s ≠ "" then some s else none
    | none => none)
  let parts :=
    if aligned_parts = [] then
      let best_matches := alignment_results.filterMap (fun r =>
        match r.source with
        | some s => if s ≠ "" ∧ 3/10 ≤ r.similarity then some (s, r.similarity) else none
        | none => none)
      ((sortBySimDesc best_matches).take 5).map Prod.fst
    else aligned_parts
  if parts = [] then refusalMsg
  else joinWithPeriod parts

/-- The grounded-answer builder exactly as the specification words it
(claim C6): no truthiness filtering, any record with aligned=true counts,
any present source with similarity at least 0.3 feeds the fallback. -/
def buildGroundedAnswerClaimed (records : List AlignmentRecord) : String :=
  let alignedRecords := records.filter (fun r => r.aligned)
  if alignedRecords ≠ [] then joinWithPeriod (alignedRecords.filterMap (fun r => r.source))
  else
    let fb := records.filterMap (fun r =>
      match r.source with
      | some s => if 3/10 ≤ r.similarity then some (s, r.similarity) else none
      | none => none)
    let fb5 := ((sortBySimDesc fb).take 5).map Prod.fst
    if fb5 ≠ [] then joinWithPeriod fb5 else refusalMsg

/-- The grounded-answer builder as amended: records count only with a
present, non-empty source (Python truthiness), in both the aligned path
and the fallback path. -/
def buildGroundedAnswerAmended (records : List AlignmentRecord) : String :=
  let alignedRecs := records.filter (fun r => r.aligned && truthySource r.source)
  let alignedSrcs := alignedRecs.map (fun r => r.source.getD "")
  if alignedSrcs ≠ [] then joinWithPeriod alignedSrcs
  else
    let fbRecs := records.filter (fun r => truthySource r.source && decide (3/10 ≤ r.similarity))
    let fb := fbRecs.map (fun r => (r.source.getD "", r.similarity))
    let fb5 := ((sortBySimDesc fb).take 5).map Prod.fst
    if fb5 ≠ [] then joinWithPeriod fb5 else refusalMsg

/-! ### lib/bm25.py : environment for external collaborators -/

/-- External collaborators of the BM25 ranker: `math.log`, the NLTK word
tokenizer, the NLTK French stopword list and the Snowball stemmer. -/
structure TextEnv where
  log : ℚ → ℚ
  splitWords : String → List String
  stopWords : List String
  stem : String → String

/-- Python `token.isdigit()`. -/
def isDigitTok (t : String) : Bool := !t.data.isEmpty && t.data.all Char.isDigit

/-- Membership in Python `string.punctuation` (ASCII 33-47, 58-64, 91-96,
123-126). -/
def isPunctCharB (c : Char) : Bool :=
  decide ((33 ≤ c.toNat ∧ c.toNat ≤ 47) ∨ (58 ≤ c.toNat ∧ c.toNat ≤ 64) ∨
    (91 ≤ c.toNat ∧ c.toNat ≤ 96) ∨ (123 ≤ c.toNat ∧ c.toNat ≤ 126))

/-- Adjacent-pair bigrams joined with an underscore. -/
def bigrams : List String → List String
  | a :: b :: rest => (a ++ "_" ++ b) :: bigrams (b :: rest)
  | _ => []

/-- `BM25Ranker._preprocess_text` (with stemming on, as every caller uses
it): lowercase, collapse whitespace, replace non-word characters by
spaces, tokenize, filter stopwords and short or numeric or punctuation
tokens, stem, then append bigrams. -/
def preprocess_text (env : TextEnv) (text : String) : List String :=
  let t1 := collapseWs (text.data.map Char.toLower)
  let t2 := t1.map (fun c => if c.isAlphanum || c == '_' || c.isWhitespace then c else ' ')
  let tokens := env.splitWords (String.mk t2)
  let tokens := tokens.filter (fun t =>
    decide (t ∉ env.stopWords) && decide (1 < t.length) && !(isDigitTok t) &&
      !(t.data.all isPunctCharB))
  let stemmed := tokens.map env.stem
  stemmed ++ bigrams stemmed

/-! ### lib/bm25.py : BM25Ranker state and methods -/

/-- The mutable state of a `BM25Ranker` instance.  Dictionaries are
modelled as functions, the `corpus_terms` set as a duplicate-free list in
insertion order. -/
structure BM25State where
  k1 : ℚ
  b : ℚ
  delta : ℚ
  doc_freqs : String → ℕ
  idf : String → Option ℚ
  doc_lens : List ℕ
  avg_doc_len : ℚ
  total_docs : ℕ
  corpus_terms : List String

/-- `BM25Ranker.__init__`. -/
def initRanker (k1 b delta : ℚ) : BM25State :=
  { k1 := k1, b := b, delta := delta, doc_freqs := fun _ => 0, idf := fun _ => none,
    doc_lens := [], avg_doc_len := 0, total_docs := 0, corpus_terms := [] }

/-- The `domain_terms` boost table from `BM25Ranker.__init__`, in source
order. -/
def domain_terms : List (String × ℚ) :=
  [("durée", 3), ("conservation", 3), ("délai", 3), ("stockage", 5/2),
   ("archivage", 5/2), ("effacement", 3), ("suppression", 5/2), ("rétention", 3),
   ("temporaire", 2), ("permanent", 2), ("période", 2), ("temps", 2),
   ("limité", 2), ("illimité", 2), ("ans", 5/2), ("mois", 5/2), ("jours", 5/2),
   ("rgpd", 2), ("gdpr", 2), ("règlement", 3/2), ("protection", 3/2),
   ("donnée", 2), ("personnelle", 2), ("régulation", 3/2), ("loi", 3/2),
   ("article", 3/2), ("paragraphe", 6/5), ("alinéa", 6/5), ("disposition", 6/5),
   ("minimisation", 2), ("finalité", 2), ("limitation", 5/2), ("proportionnalité", 2),
   ("nécessaire", 2), ("pertinent", 3/2), ("adéquat", 3/2), ("exactitude", 3/2),
   ("responsable", 3/2), ("traitement", 3/2), ("obligation", 3/2), ("conformité", 3/2),
   ("registre", 2), ("documentation", 3/2), ("mesure", 3/2), ("technique", 1),
   ("organisationnel", 1), ("sécurité", 1),
   ("archive", 2), ("statistique", 3/2), ("recherche", 3/2), ("historique", 3/2),
   ("scientifique", 3/2), ("intérêt", 3/2), ("public", 3/2), ("légal", 3/2)]

/-- Lookup in the domain-term boost table. -/
def domainTermsLookup (t : String) : Option ℚ :=
  (domain_terms.find? (fun p => decide (p.1 = t))).map Prod.snd

/-- The static `expansion_map` of `BM25Ranker._expand_query`, in source
order. -/
def expansion_map : List (String × List String) :=
  [("durée", ["temps", "période", "délai"]),
   ("conservation", ["stockage", "rétention", "archivage"]),
   ("effacement", ["suppression", "destruction", "élimination"]),
   ("rgpd", ["gdpr", "règlement", "protection"]),
   ("limitation", ["restriction", "bornage", "plafonnement"])]

/-- `BM25Ranker._expand_query`: the original terms followed by every
expansion triggered by a term (or its stem) matching a table key. -/
def expand_query (env : TextEnv) (query_terms : List String) : List String :=
  query_terms ++ query_terms.flatMap (fun term =>
    let term_stem := if (domainTermsLookup term).isSome then env.stem term else term
    expansion_map.flatMap (fun ke =>
      if term = ke.1 ∨ term_stem = env.stem ke.1 then ke.2 else []))

/-- First occurrences of the elements of a list, in order (models taking
Python `set(page_terms)`; only membership and per-page uniqueness are
observable downstream). -/
def dedupKeepFirst : List String → List String
  | [] => []
  | x :: rest => if x ∈ rest then dedupKeepFirst rest else x :: dedupKeepFirst rest

/-- Insert terms not yet present (Python `set.add` on `corpus_terms`). -/
def insertNewTerms (cterms : List String) (uniq : List String) : List String :=
  uniq.foldl (fun cs t => if t ∈ cs then cs else cs ++ [t]) cterms

/-- Accumulator of the page loop inside `BM25Ranker.fit`. -/
structure FitAcc where
  toks : List (List String)
  lens : List ℕ
  tdf : String → ℕ
  cterms : List String

/-- One iteration of the page loop inside `BM25Ranker.fit`. -/
def fitStep (env : TextEnv) (acc : FitAcc) (page : String) : FitAcc :=
  let page_terms := preprocess_text env page
  let uniq := dedupKeepFirst page_terms
  { toks := acc.toks ++ [page_terms],
    lens := acc.lens ++ [page_terms.length],
    tdf := fun u => if u ∈ uniq then acc.tdf u + 1 else acc.tdf u,
    cterms := insertNewTerms acc.cterms uniq }

/-- `BM25Ranker._calculate_idf`: for every term of `corpus_terms`, store
the smoothed IDF, boosted when the term is a domain term.  Entries for
terms outside `corpus_terms` are left untouched. -/
def calculate_idf (env : TextEnv) (total_docs : ℕ) (doc_freqs : String → ℕ)
    (cterms : List String) (idf0 : String → Option ℚ) : String → Option ℚ :=
  cterms.foldl (fun f term =>
    let df : ℚ := (doc_freqs term : ℚ)
    let base := env.log (((total_docs : ℚ) - df + 1/2) / (df + 1/2) + 1)
    let v := match domainTermsLookup term with
      | some w => base * w
      | none => base
    fun u => if u = term then some v else f u) idf0

/-- `BM25Ranker.fit`: rebuilds `doc_lens`, `doc_freqs`, `avg_doc_len` and
`total_docs` from the given pages, accumulates into `corpus_terms`, and
recomputes `idf` over the accumulated `corpus_terms`.  Returns the new
state and the tokenized pages. -/
def fit (env : TextEnv) (st : BM25State) (pages : List String) :
    BM25State × List (List String) :=
  let acc := pages.foldl (fitStep env)
    { toks := [], lens := [], tdf := fun _ => 0, cterms := st.corpus_terms }
  let total_docs := pages.length
  let avg_doc_len : ℚ := (acc.lens.sum : ℚ) / ((max 1 total_docs : ℕ) : ℚ)
  let idf := calculate_idf env total_docs acc.tdf acc.cterms st.idf
  let st2 := { st with
    doc_freqs := acc.tdf, idf := idf, doc_lens := acc.lens,
    avg_doc_len := avg_doc_len, total_docs := total_docs, corpus_terms := acc.cterms }
  (st2, acc.toks)

/-- Term frequencies of a page (`Counter(page_terms)`). -/
def termFreqs (page_terms : List String) : String → ℕ := fun u => page_terms.count u

/-- The BM25+ summation of `_calculate_page_score`, over the query terms,
given the term-frequency function and the normalized page length. -/
def pageScoreCore (k1 b delta : ℚ) (idf : String → Option ℚ) (tf : String → ℕ)
    (norm_doc_len : ℚ) (query_terms : List String) : ℚ :=
  (query_terms.map (fun term =>
    match idf term with
    | none => 0
    | some idfv =>
        let tfq : ℚ := (tf term : ℚ)
        let term_score := idfv * ((tfq * (k1 + 1)) / (tfq + k1 * (1 - b + b * norm_doc_len)) + delta)
        if term ∈ query_terms then term_score * (6/5) else term_score)).sum

/-- `BM25Ranker._calculate_page_score`; `none` models the Python
`ZeroDivisionError` raised by `doc_len / self.avg_doc_len` when the
average document length is zero. -/
def calculate_page_score (st : BM25State) (page_terms : List String)
    (query_terms : List String) (page_index : ℕ) : Option ℚ :=
  if st.avg_doc_len = 0 then none
  else
    let doc_len : ℚ := ((st.doc_lens.getD page_index 0 : ℕ) : ℚ)
    some (pageScoreCore st.k1 st.b st.delta st.idf (termFreqs page_terms)
      (doc_len / st.avg_doc_len) query_terms)

/-- Python `max(scores)` on a nonempty list (0 on the empty list, never
used there). -/
def listMaxQ : List ℚ → ℚ
  | [] => 0
  | x :: xs => xs.foldl max x

/-- Stable ascending insertion of an index by its score (later indices go
after equal-scored earlier ones). -/
def insertAscIdx (sc : List ℚ) (i : ℕ) : List ℕ → List ℕ
  | [] => [i]
  | j :: rest => if sc.getD i 0 < sc.getD j 0 then i :: j :: rest else j :: insertAscIdx sc i rest

/-- `np.argsort(scores)[::-1]`: stable ascending argsort, reversed. -/
def argsortDesc (sc : List ℚ) : List ℕ :=
  ((List.range sc.length).foldl (fun acc i => insertAscIdx sc i acc) []).reverse

/-- The fit-and-score part of `BM25Ranker.rank_pages`: runs `fit`, then
preprocesses and expands the query and scores every tokenized page.
Returns the mutated state and the scores (`none` when scoring raised). -/
def rankCompute (env : TextEnv) (st : BM25State) (pages : List String) (query : String) :
    BM25State × Option (List ℚ) :=
  let fitres := fit env st pages
  let query_terms := preprocess_text env query
  let expanded_query_terms := expand_query env query_terms
  (fitres.1, fitres.2.enum.mapM (fun pi =>
    calculate_page_score fitres.1 pi.2 expanded_query_terms pi.1))

/-- The scores computed by a `rank_pages` call (proof accessor). -/
def rankScores (env : TextEnv) (st : BM25State) (pages : List String) (query : String) :
    Option (List ℚ) :=
  (rankCompute env st pages query).2

/-- `BM25Ranker.rank_pages`: early return on an empty corpus, otherwise
fit, score, argsort descending, drop scores at or below a tenth of the
maximum, and truncate to `top_k` when given and smaller.  Returns the
mutated state and the result (`none` models the raised error). -/
def rank_pages (env : TextEnv) (st : BM25State) (pages : List String) (query : String)
    (top_k : Option ℕ) : BM25State × Option (List ℕ) :=
  if pages = [] then (st, some [])
  else
    let comp := rankCompute env st pages query
    match comp.2 with
    | none => (comp.1, none)
    | some scores =>
        let ranked_indices := argsortDesc scores
        let threshold := if scores = [] then 0 else listMaxQ scores * (1/10)
        let kept := ranked_indices.filter (fun idx => threshold < scores.getD idx 0)
        match top_k with
        | some k => if k < kept.length then (comp.1, some (kept.take k)) else (comp.1, some kept)
        | none => (comp.1, some kept)

/-- The page-selection step of `VeritasCrewBuilder.build` (lib/agents.py):
when the corpus has at most `topK` pages, bypass ranking entirely and
keep every page in original order; otherwise call `rank_pages`. -/
def selectTopPages (env : TextEnv) (st : BM25State) (pages : List String) (query : String)
    (topK : ℕ) : Option (List ℕ) :=
  if pages.length ≤ topK then some (List.range pages.length)
  else (rank_pages env st pages query (some topK)).2

/-! ### Concrete instances used for witnesses and counterexamples -/

/-- Whitespace word splitter (concrete stand-in for `word_tokenize` on
inputs without punctuation). -/
def wsWordsAux : List Char → List Char → List String
  | acc, [] => if acc = [] then [] else [String.mk acc.reverse]
  | acc, c :: rest =>
      if c.isWhitespace then
        if acc = [] then wsWordsAux [] rest else String.mk acc.reverse :: wsWordsAux [] rest
      else wsWordsAux (c :: acc) rest

/-- Whitespace word splitter on strings. -/
def splitWsStr (s : String) : List String := wsWordsAux [] s.data

/-- A concrete environment: a strictly monotone logarithm model that is
positive on arguments above one, whitespace tokenization, no stopwords,
identity stemming. -/
def env0 : TextEnv :=
  { log := fun x => x - 1, splitWords := splitWsStr, stopWords := [], stem := id }

/-- A ranker with the default constructor parameters. -/
def st0 : BM25State := initRanker (3/2) (3/4) 1

/-- The maximum similarity ratio of a generated sentence against a list of
source sentences (0 when the list is empty); specification-side value used
to state the alignment invariants. -/
def maxRatio (gen : String) (sources : List String) : ℚ :=
  (sources.map (levenshtein_ratio gen)).foldr max 0

/-- A concrete ranker state with fixed index statistics (one indexed term,
average length 1), used to witness score monotonicity. -/
def st9 : BM25State :=
  { k1 := 3/2, b := 3/4, delta := 1, doc_freqs := fun _ => 0,
    idf := fun u => if u = "aa" then some 1 else none,
    doc_lens := [2], avg_doc_len := 1, total_docs := 1, corpus_terms := ["aa"] }

/-! ## Theorems -/

/-! ### Correctness of the two-row Levenshtein implementation -/

theorem costN_le_one (a b : Char) : costN a b ≤ 1 := by
  unfold costN; split <;> omega

theorem costN_comm (a b : Char) : costN a b = costN b a := by
  simp [costN, eq_comm]

theorem levRec_nil_left (ys : List Char) : levRec [] ys = ys.length := by
  cases ys <;> simp [levRec]

theorem levRec_nil_right (xs : List Char) : levRec xs [] = xs.length := by
  cases xs <;> simp [levRec]

theorem levRec_cons_cons (x y : Char) (xs ys : List Char) :
    levRec (x :: xs) (y :: ys) =
      min (levRec xs (y :: ys) + 1)
        (min (levRec (x :: xs) ys + 1) (levRec xs ys + costN x y)) := by
  simp [levRec]

theorem levRec_self (xs : List Char) : levRec xs xs = 0 := by
  induction xs with
  | nil => simp [levRec]
  | cons x xs ih =>
      rw [levRec_cons_cons, ih]
      simp [costN]

theorem levRec_symm_aux : ∀ n xs ys, xs.length + ys.length ≤ n → levRec xs ys = levRec ys xs := by
  intro n
  induction n with
  | zero =>
      intro xs ys h
      have hx : xs = [] := List.eq_nil_of_length_eq_zero (by omega)
      have hy : ys = [] := List.eq_nil_of_length_eq_zero (by omega)
      subst hx; subst hy; rfl
  | succ n ih =>
      intro xs ys h
      match xs, ys with
      | [], ys => rw [levRec_nil_left, levRec_nil_right]
      | x :: xs, [] => rw [levRec_nil_left, levRec_nil_right]
      | x :: xs, y :: ys =>
          simp only [List.length_cons] at h
          rw [levRec_cons_cons, levRec_cons_cons,
            ih xs (y :: ys) (by simp; omega),
            ih (x :: xs) ys (by simp; omega),
            ih xs ys (by omega), costN_comm]
          omega

theorem levRec_symm (xs ys : List Char) : levRec xs ys = levRec ys xs :=
  levRec_symm_aux (xs.length + ys.length) xs ys le_rfl

theorem levRec_le_max_aux : ∀ n xs ys, xs.length + ys.length ≤ n →
    levRec xs ys ≤ max xs.length ys.length := by
  intro n
  induction n with
  | zero =>
      intro xs ys h
      have hx : xs = [] := List.eq_nil_of_length_eq_zero (by omega)
      have hy : ys = [] := List.eq_nil_of_length_eq_zero (by omega)
      subst hx; subst hy; simp [levRec]
  | succ n ih =>
      intro xs ys h
      match xs, ys with
      | [], ys => rw [levRec_nil_left]; simp
      | x :: xs, [] => rw [levRec_nil_right]; simp
      | x :: xs, y :: ys =>
          simp only [List.length_cons] at h ⊢
          rw [levRec_cons_cons]
          have h3 := ih xs ys (by omega)
          have hc := costN_le_one x y
          omega

theorem levRec_le_max (xs ys : List Char) : levRec xs ys ≤ max xs.length ys.length :=
  levRec_le_max_aux (xs.length + ys.length) xs ys le_rfl

theorem min9_transpose (a1 a2 a3 b1 b2 b3 c1 c2 c3 : ℕ) :
    min (min a1 (min a2 a3)) (min (min b1 (min b2 b3)) (min c1 (min c2 c3))) =
    min (min a1 (min b1 c1)) (min (min a2 (min b2 c2)) (min a3 (min b3 c3))) := by
  refine le_antisymm ?_ ?_ <;>
    refine le_min (le_min ?_ (le_min ?_ ?_))
      (le_min (le_min ?_ (le_min ?_ ?_)) (le_min ?_ (le_min ?_ ?_))) <;>
    omega

theorem levRec_snoc_aux : ∀ n a b x y, a.length + b.length ≤ n →
    levRec (a ++ [x]) (b ++ [y]) =
      min (levRec a (b ++ [y]) + 1)
        (min (levRec (a ++ [x]) b + 1) (levRec a b + costN x y)) := by
  intro n
  induction n with
  | zero =>
      intro a b x y h
      have hx : a = [] := List.eq_nil_of_length_eq_zero (by omega)
      have hy : b = [] := List.eq_nil_of_length_eq_zero (by omega)
      subst hx; subst hy
      simp [levRec_cons_cons, levRec_nil_left, levRec_nil_right]
  | succ n ih =>
      intro a b x y h
      match a, b with
      | [], [] =>
          simp [levRec_cons_cons, levRec_nil_left, levRec_nil_right]
      | [], b0 :: b' =>
          have e := ih [] b' x y (by simp at h ⊢; omega)
          simp only [List.nil_append] at e
          simp only [List.nil_append, List.cons_append]
          rw [levRec_cons_cons x b0 [] (b' ++ [y]), e,
            levRec_cons_cons x b0 [] b']
          simp only [levRec_nil_left, levRec_nil_right, List.length_cons,
            List.length_append, List.length_nil]
          omega
      | a0 :: a', [] =>
          have e := ih a' [] x y (by simp at h ⊢; omega)
          simp only [List.nil_append] at e
          simp only [List.nil_append, List.cons_append]
          rw [levRec_cons_cons a0 y (a' ++ [x]) [], e,
            levRec_cons_cons a0 y a' []]
          simp only [levRec_nil_left, levRec_nil_right, List.length_cons,
            List.length_append, List.length_nil]
          omega
      | a0 :: a', b0 :: b' =>
          simp only [List.length_cons] at h
          have e1 := ih a' (b0 :: b') x y (by simp only [List.length_cons]; omega)
          have e2 := ih (a0 :: a') b' x y (by simp only [List.length_cons]; omega)
          have e3 := ih a' b' x y (by omega)
          simp only [List.cons_append] at e1 e2 ⊢
          rw [levRec_cons_cons a0 b0 (a' ++ [x]) (b' ++ [y]), e1, e2,
            levRec_cons_cons a0 b0 a' (b' ++ [y]),
            levRec_cons_cons a0 b0 (a' ++ [x]) b',
            levRec_cons_cons a0 b0 a' b', e3]
          clear e1 e2 e3 h ih
          generalize levRec a' (b0 :: (b' ++ [y])) = P1
          generalize levRec (a' ++ [x]) (b0 :: b') = P2
          generalize levRec a' (b0 :: b') = P3
          generalize levRec (a0 :: a') (b' ++ [y]) = P4
          generalize levRec (a0 :: (a' ++ [x])) b' = P5
          generalize levRec (a0 :: a') b' = P6
          generalize levRec a' (b' ++ [y]) = P7
          generalize levRec (a' ++ [x]) b' = P8
          generalize levRec a' b' = P9
          generalize costN x y = c1
          generalize costN a0 b0 = c2
          simp only [← min_add_add_right]
          rw [min9_transpose]
          ring_nf

theorem levRec_snoc (a b : List Char) (x y : Char) :
    levRec (a ++ [x]) (b ++ [y]) =
      min (levRec a (b ++ [y]) + 1)
        (min (levRec (a ++ [x]) b + 1) (levRec a b + costN x y)) :=
  levRec_snoc_aux (a.length + b.length) a b x y le_rfl

theorem rowStep_spec (c : Char) (a : List Char) :
    ∀ v u, rowStep c (levRec (a ++ [c]) u) (levRec a u) v (prefixRowFrom a u v) =
      prefixRowFrom (a ++ [c]) u v := by
  intro v
  induction v with
  | nil => intro u; simp [rowStep, prefixRowFrom]
  | cons y v' ih =>
      intro u
      simp only [prefixRowFrom, rowStep]
      rw [← levRec_snoc a u c y, ih (u ++ [y])]

theorem nextRow_spec (c : Char) (s2 a : List Char) :
    nextRow c s2 (prefixRow a s2) (a.length + 1) = prefixRow (a ++ [c]) s2 := by
  have h1 : levRec (a ++ [c]) [] = a.length + 1 := by
    rw [levRec_nil_right]; simp
  simp only [prefixRow, nextRow]
  rw [← h1, rowStep_spec c a s2 []]

theorem levLoop_spec (s2 : List Char) :
    ∀ rest a, levLoop s2 rest (prefixRow a s2) (a.length + 1) = prefixRow (a ++ rest) s2 := by
  intro rest
  induction rest with
  | nil => intro a; simp [levLoop]
  | cons c rest ih =>
      intro a
      simp only [levLoop]
      rw [nextRow_spec]
      have h := ih (a ++ [c])
      simp only [List.length_append, List.length_singleton, List.append_assoc,
        List.singleton_append] at h
      exact h

theorem prefixRowFrom_nil_range : ∀ (v u : List Char),
    prefixRowFrom [] u v = List.range' (u.length + 1) v.length := by
  intro v
  induction v with
  | nil => intro u; simp [prefixRowFrom, List.range']
  | cons y v' ih =>
      intro u
      simp only [prefixRowFrom, levRec_nil_left, List.length_cons, List.length_append,
        List.length_singleton, List.range']
      rw [ih (u ++ [y])]
      simp [List.length_append]

theorem range_succ_eq_prefixRow (s2 : List Char) :
    List.range (s2.length + 1) = prefixRow [] s2 := by
  rw [List.range_eq_range']
  simp [prefixRow, levRec_nil_left, prefixRowFrom_nil_range, List.range',
    levRec_nil_right]

theorem prefixRowFrom_getD : ∀ (v u a : List Char), v ≠ [] →
    (prefixRowFrom a u v).getD (v.length - 1) 0 = levRec a (u ++ v) := by
  intro v
  induction v with
  | nil => intro u a h; exact absurd rfl h
  | cons y v' ih =>
      intro u a _
      cases v' with
      | nil => simp [prefixRowFrom]
      | cons z v'' =>
          simp only [prefixRowFrom, List.length_cons, Nat.add_sub_cancel,
            List.getD_cons_succ]
          have h := ih (u ++ [y]) a (by simp)
          simp only [List.length_cons, Nat.add_sub_cancel, List.append_assoc,
            List.singleton_append] at h
          exact h

theorem levImpl_eq_levRec (s1 s2 : List Char) (h2 : s2 ≠ []) : levImpl s1 s2 = levRec s1 s2 := by
  unfold levImpl
  rw [range_succ_eq_prefixRow]
  have h := levLoop_spec s2 s1 []
  simp only [List.length_nil, List.nil_append, Nat.zero_add] at h
  rw [h]
  unfold prefixRow
  cases s2 with
  | nil => exact absurd rfl h2
  | cons w ws =>
      simp only [List.length_cons, List.getD_cons_succ]
      have h3 := prefixRowFrom_getD (w :: ws) [] s1 (by simp)
      simp only [List.length_cons, Nat.add_sub_cancel, List.nil_append] at h3
      exact h3

theorem string_length_eq_data (s : String) : s.length = s.data.length := rfl

theorem levenshtein_eq_levRec (s1 s2 : String) :
    levenshtein_distance s1 s2 = levRec s1.data s2.data := by
  unfold levenshtein_distance
  split_ifs with h1 h2 h3
  · subst h1; rw [levRec_self]
  · have hd : s1.data = [] :=
      List.eq_nil_of_length_eq_zero (by rw [← string_length_eq_data]; exact h2)
    rw [hd, levRec_nil_left, string_length_eq_data]
  · have hd : s2.data = [] :=
      List.eq_nil_of_length_eq_zero (by rw [← string_length_eq_data]; exact h3)
    rw [hd, levRec_nil_right, string_length_eq_data]
  · apply levImpl_eq_levRec
    intro hnil
    exact h3 (by rw [string_length_eq_data, hnil]; rfl)

theorem levenshtein_distance_self (a : String) : levenshtein_distance a a = 0 := by
  unfold levenshtein_distance
  rw [if_pos rfl]

theorem levenshtein_distance_comm (a b : String) :
    levenshtein_distance a b = levenshtein_distance b a := by
  rw [levenshtein_eq_levRec, levenshtein_eq_levRec, levRec_symm]

theorem levenshtein_distance_empty_left (x : String) :
    levenshtein_distance "" x = x.length := by
  rw [levenshtein_eq_levRec]
  have : ("" : String).data = [] := rfl
  rw [this, levRec_nil_left, string_length_eq_data]

theorem levenshtein_distance_le_max (a b : String) :
    levenshtein_distance a b ≤ max a.length b.length := by
  rw [levenshtein_eq_levRec, string_length_eq_data, string_length_eq_data]
  exact levRec_le_max a.data b.data

theorem levenshtein_ratio_nonneg (a b : String) : 0 ≤ levenshtein_ratio a b := by
  simp only [levenshtein_ratio]
  split_ifs with h
  · norm_num
  · have hd := levenshtein_distance_le_max a b
    have hm : 0 < max a.length b.length := Nat.pos_of_ne_zero h
    rw [sub_nonneg, div_le_one (by exact_mod_cast hm)]
    exact_mod_cast hd

theorem levenshtein_ratio_le_one (a b : String) : levenshtein_ratio a b ≤ 1 := by
  simp only [levenshtein_ratio]
  split_ifs with h
  · exact le_refl 1
  · have hm : (0 : ℚ) < ((max a.length b.length : ℕ) : ℚ) := by
      exact_mod_cast Nat.pos_of_ne_zero h
    have hq : (0 : ℚ) ≤ ((levenshtein_distance a b : ℕ) : ℚ) / ((max a.length b.length : ℕ) : ℚ) := by
      positivity
    linarith

theorem levenshtein_ratio_self (a : String) : levenshtein_ratio a a = 1 := by
  simp only [levenshtein_ratio]
  rw [levenshtein_distance_self]
  split_ifs with h
  · rfl
  · norm_num

theorem levenshtein_ratio_empty_empty : levenshtein_ratio "" "" = 1 := levenshtein_ratio_self ""

/-! ### Claim C7: edit-distance and ratio properties -/

/-- C7: for all strings, distance(a,a) = 0, distance is symmetric,
distance("", x) = len(x); the similarity ratio lies in [0,1],
ratio(a,a) = 1, and ratio("","") = 1. -/
theorem C7_distance_ratio_properties :
    (∀ a : String, levenshtein_distance a a = 0) ∧
    (∀ a b : String, levenshtein_distance a b = levenshtein_distance b a) ∧
    (∀ x : String, levenshtein_distance "" x = x.length) ∧
    (∀ a b : String, 0 ≤ levenshtein_ratio a b ∧ levenshtein_ratio a b ≤ 1) ∧
    (∀ a : String, levenshtein_ratio a a = 1) ∧
    levenshtein_ratio "" "" = 1 :=
  ⟨levenshtein_distance_self, levenshtein_distance_comm, levenshtein_distance_empty_left,
    fun a b => ⟨levenshtein_ratio_nonneg a b, levenshtein_ratio_le_one a b⟩,
    levenshtein_ratio_self, levenshtein_ratio_empty_empty⟩

/-! ### Claim C8: align_response on empty inputs -/

/-- C8: `align_response` returns the empty record list immediately when the
generated text is empty or the source-sentence list is empty. -/
theorem C8_align_empty_inputs :
    (∀ (sentSplit : Option (String → List String)) (sources : List String) (thr : ℚ),
      align_response sentSplit "" sources thr = []) ∧
    (∀ (sentSplit : Option (String → List String)) (text : String) (thr : ℚ),
      align_response sentSplit text [] thr = []) := by
  constructor
  · intro sp sources thr
    simp [align_response]
  · intro sp text thr
    simp [align_response]

/-! ### Lemmas on argmax, the rescan loop, and fold-maxima -/

theorem foldr_max_nonneg (l : List ℚ) : 0 ≤ l.foldr max 0 := by
  induction l with
  | nil => simp
  | cons v rest ih => simpa using Or.inr ih

theorem foldr_max_le (l : List ℚ) (c : ℚ) (hc : 0 ≤ c) (h : ∀ x ∈ l, x ≤ c) :
    l.foldr max 0 ≤ c := by
  induction l with
  | nil => simpa using hc
  | cons v rest ih =>
      simp only [List.foldr_cons, max_le_iff]
      exact ⟨h v (by simp), ih (fun x hx => h x (by simp [hx]))⟩

theorem le_foldr_max (l : List ℚ) (x : ℚ) (hx : x ∈ l) : x ≤ l.foldr max 0 := by
  induction l with
  | nil => cases hx
  | cons v rest ih =>
      rcases List.mem_cons.mp hx with h | h
      · subst h; simp
      · simp only [List.foldr_cons]
        exact le_trans (ih h) (le_max_right _ _)

theorem foldl_max_nonneg_eq : ∀ (l : List ℚ) (b : ℚ), 0 ≤ b →
    l.foldl max b = max b (l.foldr max 0) := by
  intro l
  induction l with
  | nil => intro b hb; simp [max_eq_left hb]
  | cons v rest ih =>
      intro b hb
      simp only [List.foldl_cons, List.foldr_cons]
      rw [ih (max b v) (le_trans hb (le_max_left b v)), max_assoc]

theorem argmaxAux_snd : ∀ (l : List ℚ) (bi : ℕ) (bv : ℚ) (i : ℕ),
    (argmaxAux bi bv i l).2 = l.foldl max bv := by
  intro l
  induction l with
  | nil => intros; rfl
  | cons v rest ih =>
      intro bi bv i
      simp only [argmaxAux, List.foldl_cons]
      split_ifs with h
      · rw [ih, max_eq_right (le_of_lt h)]
      · rw [ih, max_eq_left (le_of_not_lt h)]

theorem argmaxAux_inv : ∀ (l full : List ℚ) (bi i : ℕ) (bv : ℚ),
    full.drop i = l → bi < full.length → full.getD bi 0 = bv →
    (argmaxAux bi bv i l).1 < full.length ∧
      full.getD (argmaxAux bi bv i l).1 0 = (argmaxAux bi bv i l).2 := by
  intro l
  induction l with
  | nil =>
      intro full bi i bv hd hlt hv
      exact ⟨hlt, hv⟩
  | cons v rest ih =>
      intro full bi i bv hd hlt hv
      have hi : i < full.length := by
        by_contra hge
        rw [List.drop_eq_nil_of_le (le_of_not_lt hge)] at hd
        exact List.cons_ne_nil v rest hd.symm
      have hgi : full.getD i 0 = v := by
        have h1 : full[i]? = some v := by
          rw [← List.head?_drop, hd]; rfl
        simp [List.getD_eq_getElem?_getD, h1]
      have hd' : full.drop (i + 1) = rest := by
        have h2 := congrArg List.tail hd
        rwa [List.tail_drop] at h2
      simp only [argmaxAux]
      split_ifs with h
      · exact ih full i (i + 1) v hd' hi hgi
      · exact ih full bi (i + 1) bv hd' hlt hv

theorem rescanAux_snd : ∀ (l : List String) (text : String) (bi : ℤ) (bs : ℚ) (i : ℕ),
    (rescanAux text bi bs i l).2 = (l.map (levenshtein_ratio text)).foldl max bs := by
  intro l
  induction l with
  | nil => intros; rfl
  | cons s rest ih =>
      intro text bi bs i
      simp only [rescanAux, List.map_cons, List.foldl_cons]
      split_ifs with h
      · rw [ih, max_eq_right (le_of_lt h)]
      · rw [ih, max_eq_left (le_of_not_lt h)]

theorem rescanAux_fst_nonneg : ∀ (l : List String) (text : String) (bi : ℤ) (bs : ℚ) (i : ℕ),
    0 ≤ bi → 0 ≤ (rescanAux text bi bs i l).1 := by
  intro l
  induction l with
  | nil => intro text bi bs i h; exact h
  | cons s rest ih =>
      intro text bi bs i h
      simp only [rescanAux]
      split_ifs with hc
      · exact ih text (i : ℤ) _ (i + 1) (Int.natCast_nonneg i)
      · exact ih text bi bs (i + 1) h

theorem rescanAux_fst_cases : ∀ (l : List String) (text : String) (bi : ℤ) (bs : ℚ) (i : ℕ),
    (rescanAux text bi bs i l).1 = bi ∨ 0 ≤ (rescanAux text bi bs i l).1 := by
  intro l
  induction l with
  | nil => intros; exact Or.inl rfl
  | cons s rest ih =>
      intro text bi bs i
      simp only [rescanAux]
      split_ifs with hc
      · exact Or.inr (rescanAux_fst_nonneg rest text (i : ℤ) _ (i + 1) (Int.natCast_nonneg i))
      · exact ih text bi bs (i + 1)

theorem rescanAux_no_update : ∀ (l : List String) (text : String) (bs : ℚ) (i : ℕ),
    (rescanAux text (-1) bs i l).1 = -1 → (rescanAux text (-1) bs i l).2 = bs := by
  intro l
  induction l with
  | nil => intros; rfl
  | cons s rest ih =>
      intro text bs i h
      simp only [rescanAux] at h ⊢
      split_ifs at h ⊢ with hc
      · exfalso
        have h2 := rescanAux_fst_nonneg rest text (i : ℤ) (levenshtein_ratio text s) (i + 1)
          (Int.natCast_nonneg i)
        omega
      · exact ih text bs (i + 1) h

theorem rescanAux_inv : ∀ (l full : List String) (text : String) (bi : ℤ) (bs : ℚ) (i : ℕ),
    full.drop i = l →
    (0 ≤ bi → bi.toNat < full.length ∧
      levenshtein_ratio text (full.getD bi.toNat "") = bs) →
    (0 ≤ (rescanAux text bi bs i l).1 →
      (rescanAux text bi bs i l).1.toNat < full.length ∧
      levenshtein_ratio text (full.getD (rescanAux text bi bs i l).1.toNat "") =
        (rescanAux text bi bs i l).2) := by
  intro l
  induction l with
  | nil => intro full text bi bs i hd hb; exact hb
  | cons s rest ih =>
      intro full text bi bs i hd hb
      have hi : i < full.length := by
        by_contra hge
        rw [List.drop_eq_nil_of_le (le_of_not_lt hge)] at hd
        exact List.cons_ne_nil s rest hd.symm
      have hgi : full.getD i "" = s := by
        have h1 : full[i]? = some s := by rw [← List.head?_drop, hd]; rfl
        simp [List.getD_eq_getElem?_getD, h1]
      have hd' : full.drop (i + 1) = rest := by
        have h2 := congrArg List.tail hd
        rwa [List.tail_drop] at h2
      simp only [rescanAux]
      split_ifs with h
      · refine ih full text (i : ℤ) _ (i + 1) hd' (fun _ => ⟨?_, ?_⟩)
        · simpa using hi
        · simp only [Int.toNat_natCast]
          rw [hgi]
      · exact ih full text bi bs (i + 1) hd' hb

theorem map_ratio_getD (text : String) (cands : List String) (k : ℕ) (hk : k < cands.length) :
    (cands.map (fun cand => levenshtein_ratio text cand)).getD k 0 =
      levenshtein_ratio text (cands.getD k "") := by
  rw [List.getD_eq_getElem _ _ (by simpa using hk), List.getD_eq_getElem _ _ hk,
    List.getElem_map]

theorem find_closest_spec (text : String) (cands : List String) (thr : ℚ) (h : cands ≠ []) :
    (find_closest_text text cands thr).2 = maxRatio text cands ∧
    ((0 : ℤ) ≤ (find_closest_text text cands thr).1 ↔ thr ≤ maxRatio text cands) ∧
    (0 ≤ (find_closest_text text cands thr).1 →
      (find_closest_text text cands thr).1.toNat < cands.length ∧
      levenshtein_ratio text (cands.getD (find_closest_text text cands thr).1.toNat "") =
        maxRatio text cands) := by
  match cands, h with
  | c0 :: crest, _ =>
      have hinv := argmaxAux_inv (crest.map (fun cand => levenshtein_ratio text cand))
        ((c0 :: crest).map (fun cand => levenshtein_ratio text cand)) 0 1
        (levenshtein_ratio text c0) rfl (by simp) rfl
      have hsnd := argmaxAux_snd (crest.map (fun cand => levenshtein_ratio text cand)) 0
        (levenshtein_ratio text c0) 1
      have hval : (argmaxAux 0 (levenshtein_ratio text c0) 1
          (crest.map (fun cand => levenshtein_ratio text cand))).2 =
          maxRatio text (c0 :: crest) := by
        rw [hsnd, foldl_max_nonneg_eq _ _ (levenshtein_ratio_nonneg text c0)]
        simp [maxRatio]
      have hidx : argmaxFirst ((c0 :: crest).map (fun cand => levenshtein_ratio text cand)) =
          (argmaxAux 0 (levenshtein_ratio text c0) 1
            (crest.map (fun cand => levenshtein_ratio text cand))).1 := by
        simp [argmaxFirst]
      have hmx : ((c0 :: crest).map (fun cand => levenshtein_ratio text cand)).getD
          (argmaxFirst ((c0 :: crest).map (fun cand => levenshtein_ratio text cand))) 0 =
          maxRatio text (c0 :: crest) := by
        rw [hidx, hinv.2, hval]
      have hlen : argmaxFirst ((c0 :: crest).map (fun cand => levenshtein_ratio text cand)) <
          (c0 :: crest).length := by
        rw [hidx]
        simpa using hinv.1
      simp only [find_closest_text]
      split_ifs with hth
      · rw [hmx] at hth
        refine ⟨by simpa using hmx, ?_, ?_⟩
        · simp [hth]
        · intro _
          constructor
          · simpa using hlen
          · have h5 := map_ratio_getD text (c0 :: crest) (argmaxFirst
              ((c0 :: crest).map (fun cand => levenshtein_ratio text cand))) hlen
            show levenshtein_ratio text ((c0 :: crest).getD (argmaxFirst
              ((c0 :: crest).map (fun cand => levenshtein_ratio text cand))) "") =
              maxRatio text (c0 :: crest)
            rw [← h5]
            exact hmx
      · rw [hmx] at hth
        refine ⟨by simpa using hmx, ?_, ?_⟩
        · constructor
          · intro hc; norm_num at hc
          · intro hc; exact absurd hc hth
        · intro hc; norm_num at hc

theorem rescan_spec (text : String) (srcs : List String) :
    (rescanAux text (-1) 0 0 srcs).2 = maxRatio text srcs ∧
    (0 ≤ (rescanAux text (-1) 0 0 srcs).1 →
      (rescanAux text (-1) 0 0 srcs).1.toNat < srcs.length ∧
      levenshtein_ratio text (srcs.getD (rescanAux text (-1) 0 0 srcs).1.toNat "") =
        (rescanAux text (-1) 0 0 srcs).2) ∧
    ((rescanAux text (-1) 0 0 srcs).1 < 0 → maxRatio text srcs = 0) := by
  have hsnd := rescanAux_snd srcs text (-1) 0 0
  have hval : (rescanAux text (-1) 0 0 srcs).2 = maxRatio text srcs := by
    rw [hsnd, foldl_max_nonneg_eq _ 0 le_rfl,
      max_eq_right (foldr_max_nonneg (srcs.map (levenshtein_ratio text)))]
    rfl
  refine ⟨hval, ?_, ?_⟩
  · exact rescanAux_inv srcs srcs text (-1) 0 0 rfl (by intro hc; norm_num at hc)
  · intro hneg
    rcases rescanAux_fst_cases srcs text (-1) 0 0 with hc | hc
    · rw [← hval, rescanAux_no_update srcs text 0 0 hc]
    · omega

theorem getD_mem_of_lt (l : List String) (k : ℕ) (hk : k < l.length) : l.getD k "" ∈ l := by
  rw [List.getD_eq_getElem _ _ hk]
  exact List.getElem_mem hk

theorem maxRatio_nonneg (gen : String) (srcs : List String) : 0 ≤ maxRatio gen srcs :=
  foldr_max_nonneg _

theorem maxRatio_le_one (gen : String) (srcs : List String) : maxRatio gen srcs ≤ 1 := by
  apply foldr_max_le _ _ (by norm_num)
  intro x hx
  obtain ⟨s, _, rfl⟩ := List.mem_map.mp hx
  exact levenshtein_ratio_le_one gen s

theorem alignOne_spec (sent : String) (srcs : List String) (thr : ℚ) (hsrcs : srcs ≠ []) :
    (alignOne sent srcs thr).generated = sent ∧
    (0 ≤ (alignOne sent srcs thr).similarity ∧ (alignOne sent srcs thr).similarity ≤ 1) ∧
    (alignOne sent srcs thr).similarity = maxRatio sent srcs ∧
    ((alignOne sent srcs thr).aligned = true ↔ thr ≤ maxRatio sent srcs) ∧
    ((alignOne sent srcs thr).aligned = true →
      ∃ s ∈ srcs, (alignOne sent srcs thr).source = some s ∧
        levenshtein_ratio sent s = maxRatio sent srcs) ∧
    (((alignOne sent srcs thr).aligned = false ∧ (alignOne sent srcs thr).source ≠ none) ↔
      (maxRatio sent srcs < thr ∧ 2/5 ≤ maxRatio sent srcs)) ∧
    (((alignOne sent srcs thr).aligned = false ∧ (alignOne sent srcs thr).source ≠ none) →
      ∃ s ∈ srcs, (alignOne sent srcs thr).source = some s ∧
        levenshtein_ratio sent s = maxRatio sent srcs) ∧
    ((alignOne sent srcs thr).source = none → (alignOne sent srcs thr).aligned = false) := by
  obtain ⟨hf2, hfiff, hfidx⟩ := find_closest_spec sent srcs thr hsrcs
  obtain ⟨hb2, hbinv, hbneg⟩ := rescan_spec sent srcs
  simp only [alignOne]
  by_cases h1 : 0 ≤ (find_closest_text sent srcs thr).1
  · rw [if_pos h1]
    have hm : thr ≤ maxRatio sent srcs := hfiff.mp h1
    obtain ⟨hlt, hval⟩ := hfidx h1
    refine ⟨rfl, ?_, hf2, ?_, ?_, ?_, ?_, ?_⟩
    · exact hf2 ▸ ⟨maxRatio_nonneg sent srcs, maxRatio_le_one sent srcs⟩
    · exact ⟨fun _ => hm, fun _ => rfl⟩
    · intro _
      exact ⟨srcs.getD (find_closest_text sent srcs thr).1.toNat "",
        getD_mem_of_lt srcs _ hlt, rfl, hval⟩
    · constructor
      · rintro ⟨habs, -⟩; cases habs
      · rintro ⟨hlt', -⟩; exact absurd hm (not_le.mpr hlt')
    · rintro ⟨habs, -⟩; cases habs
    · intro habs; cases habs
  · rw [if_neg h1]
    have hm' : maxRatio sent srcs < thr :=
      not_le.mp (fun hc => h1 (hfiff.mpr hc))
    by_cases h2 : 0 ≤ (rescanAux sent (-1) 0 0 srcs).1 ∧
        2/5 ≤ (rescanAux sent (-1) 0 0 srcs).2
    · rw [if_pos h2]
      obtain ⟨hlt, hval⟩ := hbinv h2.1
      refine ⟨rfl, ?_, hb2, ?_, ?_, ?_, ?_, ?_⟩
      · exact hb2 ▸ ⟨maxRatio_nonneg sent srcs, maxRatio_le_one sent srcs⟩
      · constructor
        · intro habs; cases habs
        · intro hthr; exact absurd hthr (not_le.mpr hm')
      · intro habs; cases habs
      · constructor
        · intro _; exact ⟨hm', hb2 ▸ h2.2⟩
        · intro _; exact ⟨rfl, by simp⟩
      · intro _
        exact ⟨srcs.getD (rescanAux sent (-1) 0 0 srcs).1.toNat "",
          getD_mem_of_lt srcs _ hlt, rfl, by rw [hval, hb2]⟩
      · intro habs; cases habs
    · rw [if_neg h2]
      have hb1pos : 2/5 ≤ maxRatio sent srcs → 0 ≤ (rescanAux sent (-1) 0 0 srcs).1 := by
        intro h25
        by_contra hneg
        have h0 := hbneg (lt_of_not_le hneg)
        rw [h0] at h25
        norm_num at h25
      have hsim : (if 0 ≤ (rescanAux sent (-1) 0 0 srcs).1
          then (rescanAux sent (-1) 0 0 srcs).2 else 0) = maxRatio sent srcs := by
        split_ifs with hb1
        · exact hb2
        · exact (hbneg (lt_of_not_le hb1)).symm
      refine ⟨rfl, ?_, hsim, ?_, ?_, ?_, ?_, ?_⟩
      · exact hsim ▸ ⟨maxRatio_nonneg sent srcs, maxRatio_le_one sent srcs⟩
      · constructor
        · intro habs; cases habs
        · intro hthr; exact absurd hthr (not_le.mpr hm')
      · intro habs; cases habs
      · constructor
        · rintro ⟨-, habs⟩; exact absurd rfl habs
        · rintro ⟨-, h25⟩
          exact absurd ⟨hb1pos h25, hb2 ▸ h25⟩ h2
      · rintro ⟨-, habs⟩; exact absurd rfl habs
      · intro _; rfl

/-! ### Claim C5: invariants of alignment records -/

/-- C5: every record produced by `align_response` has similarity in [0,1],
equal to the maximal ratio of its generated sentence against the sources;
aligned=true exactly when that maximum reaches the primary threshold, and
then the source is a best-matching sentence; aligned=false with a present
source exactly when the maximum is below the primary threshold but at
least the fixed fallback threshold 0.4 (and the source is then a
best-matching sentence); an absent source forces aligned=false. -/
theorem C5_alignment_record_invariants (sentSplit : Option (String → List String))
    (resp : String) (srcs : List String) (thr : ℚ) (r : AlignmentRecord)
    (hr : r ∈ align_response sentSplit resp srcs thr) :
    (0 ≤ r.similarity ∧ r.similarity ≤ 1) ∧
    r.similarity = maxRatio r.generated srcs ∧
    (r.aligned = true ↔ thr ≤ maxRatio r.generated srcs) ∧
    (r.aligned = true → ∃ s ∈ srcs, r.source = some s ∧
      levenshtein_ratio r.generated s = maxRatio r.generated srcs) ∧
    ((r.aligned = false ∧ r.source ≠ none) ↔
      (maxRatio r.generated srcs < thr ∧ 2/5 ≤ maxRatio r.generated srcs)) ∧
    ((r.aligned = false ∧ r.source ≠ none) → ∃ s ∈ srcs, r.source = some s ∧
      levenshtein_ratio r.generated s = maxRatio r.generated srcs) ∧
    (r.source = none → r.aligned = false) := by
  rw [align_response] at hr
  split_ifs at hr with hcond
  · simp at hr
  · have hsrcs : srcs ≠ [] := fun h => hcond (Or.inr h)
    obtain ⟨sent, hsent, hrf⟩ := List.mem_map.mp hr
    obtain ⟨hgen, hbounds, hsim, hiff, hsrc, hiff2, hsrc2, hnone⟩ :=
      alignOne_spec sent srcs thr hsrcs
    subst hrf
    rw [hgen]
    exact ⟨hbounds, hsim, hiff, hsrc, hiff2, hsrc2, hnone⟩

unseal Rat.add Rat.sub Rat.mul Rat.inv in
theorem C5_alignment_record_invariants_witness :
    ((AlignmentRecord.mk "aaaaaaaaaaaa" (some "aaaaaaaaaaaa") (1 : ℚ) true).aligned = true ↔
      (7/10 : ℚ) ≤ maxRatio "aaaaaaaaaaaa" ["aaaaaaaaaaaa"]) ∧
    (0 : ℚ) ≤ (AlignmentRecord.mk "aaaaaaaaaaaa" (some "aaaaaaaaaaaa") (1 : ℚ) true).similarity :=
  have h := C5_alignment_record_invariants none "aaaaaaaaaaaa." ["aaaaaaaaaaaa"] (7/10)
    ⟨"aaaaaaaaaaaa", some "aaaaaaaaaaaa", 1, true⟩ (by decide)
  ⟨h.2.2.1, h.1.1⟩

/-! ### Lemmas on build_factual_response -/

theorem alignedParts_eq (records : List AlignmentRecord) :
    records.filterMap (fun r =>
      match r.source with
      | some s => if r.aligned = true ∧ s ≠ "" then some s else none
      | none => none) =
    (records.filter (fun r => r.aligned && truthySource r.source)).map
      (fun r => r.source.getD "") := by
  induction records with
  | nil => rfl
  | cons r rest ih =>
      cases hs : r.source with
      | none =>
          simp only [List.filterMap_cons, List.filter_cons, hs, truthySource,
            Bool.and_false, ih]
          rfl
      | some s =>
          by_cases ha : r.aligned
          · by_cases hne : s = ""
            · subst hne
              simp [List.filterMap_cons, List.filter_cons, hs, truthySource, ha, ih]
            · simp [List.filterMap_cons, List.filter_cons, hs, truthySource, ha, hne, ih]
          · simp [List.filterMap_cons, List.filter_cons, hs, truthySource, ha, ih]

theorem bestMatches_eq (records : List AlignmentRecord) :
    records.filterMap (fun r =>
      match r.source with
      | some s => if s ≠ "" ∧ 3/10 ≤ r.similarity then some (s, r.similarity) else none
      | none => none) =
    (records.filter (fun r => truthySource r.source && decide (3/10 ≤ r.similarity))).map
      (fun r => (r.source.getD "", r.similarity)) := by
  induction records with
  | nil => rfl
  | cons r rest ih =>
      cases hs : r.source with
      | none =>
          simp only [List.filterMap_cons, List.filter_cons, hs, truthySource,
            Bool.false_and, ih]
          rfl
      | some s =>
          by_cases hne : s = ""
          · subst hne
            simp [List.filterMap_cons, List.filter_cons, hs, truthySource, ih]
          · by_cases hsim : (3 : ℚ)/10 ≤ r.similarity
            · simp [List.filterMap_cons, List.filter_cons, hs, truthySource, hne, hsim, ih]
            · simp [List.filterMap_cons, List.filter_cons, hs, truthySource, hne, hsim, ih]

/-! ### Claim C6 (corrected): the grounded-answer builder -/

-- C6 counterexample: a single record with aligned=true but an empty
-- source string.  As the claim is stated, some record has aligned=true, so
-- the answer should be the join of the source fields of those records; the
-- code instead applies Python truthiness, drops the record, and returns the
-- refusal string.
unseal Rat.add Rat.sub Rat.mul Rat.inv in
theorem C6_claim_counterexample :
    build_factual_response [⟨"g", some "", 1, true⟩] ≠
      buildGroundedAnswerClaimed [⟨"g", some "", 1, true⟩] := by
  decide

/-- C6 as amended: records feed the aligned join only with aligned=true
and a present, non-empty source; the fallback keeps records with a
present, non-empty source and similarity at least 0.3, stable-sorted
descending, truncated to five; otherwise the refusal string. -/
theorem C6_grounded_answer_amended (records : List AlignmentRecord) :
    build_factual_response records = buildGroundedAnswerAmended records := by
  simp only [build_factual_response, buildGroundedAnswerAmended]
  rw [alignedParts_eq, bestMatches_eq]
  by_cases hA : (records.filter (fun r => r.aligned && truthySource r.source)).map
      (fun r => r.source.getD "") = []
  · rw [if_pos hA, if_neg (not_not_intro hA)]
    by_cases hFB : ((sortBySimDesc ((records.filter (fun r =>
        truthySource r.source && decide (3/10 ≤ r.similarity))).map
          (fun r => (r.source.getD "", r.similarity)))).take 5).map Prod.fst = []
    · rw [if_pos hFB, if_neg (not_not_intro hFB)]
    · rw [if_neg hFB, if_pos hFB]
  · rw [if_neg hA, if_neg hA, if_pos hA]

theorem count_map_getD_filter (records : List AlignmentRecord) (p : AlignmentRecord → Bool)
    (s : String) (hptruthy : ∀ r, p r = true → truthySource r.source = true) :
    List.count s ((records.filter p).map (fun r => r.source.getD "")) =
      (records.filter (fun r => p r && r.source == some s)).length := by
  induction records with
  | nil => rfl
  | cons r rest ih =>
      by_cases hpr : p r
      · have ht := hptruthy r hpr
        cases hsrc : r.source with
        | none => rw [hsrc] at ht; simp [truthySource] at ht
        | some t =>
            by_cases hts : t = s
            · subst hts
              simp [List.filter_cons, List.count_cons, hpr, hsrc, ih]
            · simp [List.filter_cons, List.count_cons, hpr, hsrc, hts, ih]
      · simp [List.filter_cons, hpr, ih]

/-! ### Claim C10: no deduplication in the grounded-answer builder -/

/-- C10: the builder never deduplicates.  In the aligned path the answer
is the join of one source per qualifying record, and for a non-empty
sentence s the number of occurrences of s among the joined parts equals
the number of aligned records carrying s; in the fallback path, before
sorting and truncation, each record with a qualifying source and
similarity at least 0.3 likewise contributes its own copy. -/
theorem C10_no_deduplication (records : List AlignmentRecord) (s : String) (hs : s ≠ "") :
    ((records.filter (fun r => r.aligned && truthySource r.source)) ≠ [] →
      build_factual_response records =
        joinWithPeriod ((records.filter (fun r => r.aligned && truthySource r.source)).map
          (fun r => r.source.getD ""))) ∧
    List.count s ((records.filter (fun r => r.aligned && truthySource r.source)).map
        (fun r => r.source.getD "")) =
      (records.filter (fun r => r.aligned && r.source == some s)).length ∧
    List.count s ((records.filter (fun r =>
        truthySource r.source && decide (3/10 ≤ r.similarity))).map
        (fun r => r.source.getD "")) =
      (records.filter (fun r => r.source == some s && decide (3/10 ≤ r.similarity))).length := by
  refine ⟨?_, ?_, ?_⟩
  · intro hne
    have hne' : (records.filter (fun r => r.aligned && truthySource r.source)).map
        (fun r => r.source.getD "") ≠ [] := by
      simpa using hne
    simp only [build_factual_response]
    rw [alignedParts_eq, if_neg hne', if_neg hne']
  · rw [count_map_getD_filter records _ s
      (fun r h => (Bool.and_elim_right h))]
    apply congrArg
    apply List.filter_congr
    intro r _
    cases hsrc : r.source with
    | none => simp [truthySource]
    | some t =>
        by_cases hts : t = s
        · subst hts
          simp [truthySource, hs]
        · have hbe : (t == s) = false := beq_eq_false_iff_ne.mpr hts
          simp [hbe]
  · rw [count_map_getD_filter records _ s
      (fun r h => (Bool.and_elim_left h))]
    apply congrArg
    apply List.filter_congr
    intro r _
    cases hsrc : r.source with
    | none => simp [truthySource]
    | some t =>
        by_cases hts : t = s
        · subst hts
          simp [truthySource, hs, Bool.and_comm]
        · have hbe : (t == s) = false := beq_eq_false_iff_ne.mpr hts
          simp [hbe]

unseal Rat.add Rat.sub Rat.mul Rat.inv in
theorem C10_no_deduplication_witness :
    build_factual_response
      [⟨"g1", some "abc", 1, true⟩, ⟨"g2", some "abc", 1, true⟩] = "abc. abc." ∧
    List.count "abc"
      (([(⟨"g1", some "abc", 1, true⟩ : AlignmentRecord), ⟨"g2", some "abc", 1, true⟩].filter
        (fun r => r.aligned && truthySource r.source)).map (fun r => r.source.getD "")) = 2 := by
  have h := C10_no_deduplication
    [⟨"g1", some "abc", 1, true⟩, ⟨"g2", some "abc", 1, true⟩] "abc" (by decide)
  constructor
  · rw [h.1 (by decide)]
    decide
  · rw [h.2.1]
    decide

/-! ### Claim C1 (code bug): a zero-token corpus makes ranking raise -/

unseal Rat.add Rat.sub Rat.mul Rat.inv in
/-- C1: on a corpus whose only page tokenizes to zero terms, `fit` sets
`avg_doc_len = 0` and `_calculate_page_score` evaluates
`doc_len / self.avg_doc_len`, a float division by zero: Python raises
ZeroDivisionError (modelled by a `none` result), although the spec
promises that no core operation is fatal. -/
theorem C1_rank_pages_zero_division :
    (rank_pages env0 st0 [""] "conservation" none).2 = none := by decide

/-! ### Claim C2 (code bug): rank_pages is not stateless across calls -/

unseal Rat.add Rat.sub Rat.mul Rat.inv in
/-- C2: `fit` never resets `corpus_terms` (and `_calculate_idf` rebuilds
`idf` over the accumulated set), so a term seen in an earlier call keeps
a positive IDF entry in later calls.  After ranking the corpus ["zz"],
ranking ["qq", "pp"] against the query "zz" on the same instance returns
both pages (every page earns the stale delta floor for "zz" and survives
the relative threshold), while a freshly constructed ranker returns [];
the spec says the result of every call depends only on that call's
arguments. -/
theorem C2_rank_pages_state_leak :
    (rank_pages env0 ((rank_pages env0 st0 ["zz"] "xx" none).1) ["qq", "pp"] "zz" none).2 =
        some [1, 0] ∧
      (rank_pages env0 st0 ["qq", "pp"] "zz" none).2 = some [] := by
  constructor <;> decide

/-! ### Claim C3 (corrected): the topK short-circuit lives in the caller -/

-- C3 counterexample: `rank_pages` itself never bypasses ranking: with
-- two pages and topK = 5 it still scores, sorts and filters, returning
-- [1, 0] rather than list(range(2)).
unseal Rat.add Rat.sub Rat.mul Rat.inv in
theorem C3_claim_counterexample :
    (rank_pages env0 st0 ["zz", "qq"] "qq" (some 5)).2 = some [1, 0] ∧
      (["zz", "qq"] : List String).length ≤ 5 ∧
      some [1, 0] ≠ some (List.range (["zz", "qq"] : List String).length) := by
  refine ⟨by decide, by decide, by decide⟩

/-- C3 as amended: the short-circuit is implemented in the caller
(`VeritasCrewBuilder.build`): when the page count is at most topK the
caller returns `list(range(len(pages)))` without invoking `rank_pages`;
`rank_pages` itself always ranks and may reorder or drop pages. -/
theorem C3_short_circuit_amended (env : TextEnv) (st : BM25State) (pages : List String)
    (query : String) (topK : ℕ) (h : pages.length ≤ topK) :
    selectTopPages env st pages query topK = some (List.range pages.length) := by
  simp [selectTopPages, h]

theorem C3_short_circuit_amended_witness :
    selectTopPages env0 st0 ["a", "b"] "q" 3 = some (List.range 2) :=
  C3_short_circuit_amended env0 st0 ["a", "b"] "q" 3 (by decide)

/-! ### Lemmas on the argsort model and rank_pages -/

theorem insertAscIdx_perm (sc : List ℚ) (i : ℕ) :
    ∀ l, (insertAscIdx sc i l).Perm (i :: l) := by
  intro l
  induction l with
  | nil => simp [insertAscIdx]
  | cons j rest ih =>
      simp only [insertAscIdx]
      split_ifs with h
      · exact List.Perm.refl _
      · exact (ih.cons j).trans (List.Perm.swap i j rest)

theorem foldl_insertAscIdx_perm (sc : List ℚ) :
    ∀ (xs : List ℕ) (acc : List ℕ),
      (xs.foldl (fun acc i => insertAscIdx sc i acc) acc).Perm (acc ++ xs) := by
  intro xs
  induction xs with
  | nil => intro acc; simp
  | cons x xs ih =>
      intro acc
      simp only [List.foldl_cons]
      refine (ih (insertAscIdx sc x acc)).trans ?_
      refine (List.Perm.append_right xs (insertAscIdx_perm sc x acc)).trans ?_
      exact List.perm_middle.symm

theorem argsortDesc_perm (sc : List ℚ) :
    (argsortDesc sc).Perm (List.range sc.length) := by
  unfold argsortDesc
  refine (List.reverse_perm _).trans ?_
  simpa using foldl_insertAscIdx_perm sc (List.range sc.length) []

theorem argsortDesc_nodup (sc : List ℚ) : (argsortDesc sc).Nodup :=
  (argsortDesc_perm sc).nodup_iff.mpr (List.nodup_range _)

theorem argsortDesc_mem (sc : List ℚ) (i : ℕ) (h : i ∈ argsortDesc sc) : i < sc.length := by
  have := (argsortDesc_perm sc).mem_iff.mp h
  simpa using this

theorem insertAscIdx_sorted (sc : List ℚ) (i : ℕ) :
    ∀ l, l.Pairwise (fun a b => sc.getD a 0 ≤ sc.getD b 0) →
      (insertAscIdx sc i l).Pairwise (fun a b => sc.getD a 0 ≤ sc.getD b 0) := by
  intro l
  induction l with
  | nil => intro _; simp [insertAscIdx]
  | cons j rest ih =>
      intro hp
      rcases List.pairwise_cons.mp hp with ⟨hj, hrest⟩
      simp only [insertAscIdx]
      split_ifs with h
      · refine List.pairwise_cons.mpr ⟨?_, hp⟩
        intro b hb
        rcases List.mem_cons.mp hb with rfl | hb
        · exact le_of_lt h
        · exact le_trans (le_of_lt h) (hj b hb)
      · refine List.pairwise_cons.mpr ⟨?_, ih hrest⟩
        intro b hb
        have hb' : b ∈ i :: rest := (insertAscIdx_perm sc i rest).mem_iff.mp hb
        rcases List.mem_cons.mp hb' with rfl | hb'
        · exact le_of_not_lt h
        · exact hj b hb'

theorem foldl_insertAscIdx_sorted (sc : List ℚ) :
    ∀ (xs : List ℕ) (acc : List ℕ),
      acc.Pairwise (fun a b => sc.getD a 0 ≤ sc.getD b 0) →
      (xs.foldl (fun acc i => insertAscIdx sc i acc) acc).Pairwise
        (fun a b => sc.getD a 0 ≤ sc.getD b 0) := by
  intro xs
  induction xs with
  | nil => intro acc h; exact h
  | cons x xs ih =>
      intro acc h
      exact ih (insertAscIdx sc x acc) (insertAscIdx_sorted sc x acc h)

theorem argsortDesc_sorted (sc : List ℚ) :
    (argsortDesc sc).Pairwise (fun a b => sc.getD b 0 ≤ sc.getD a 0) := by
  unfold argsortDesc
  rw [List.pairwise_reverse]
  exact foldl_insertAscIdx_sorted sc (List.range sc.length) [] List.Pairwise.nil

theorem listMaxQ_all_zero (sc : List ℚ) (h : ∀ x ∈ sc, x = 0) : listMaxQ sc = 0 := by
  cases sc with
  | nil => rfl
  | cons x xs =>
      have hx : x = 0 := h x (by simp)
      simp only [listMaxQ]
      subst hx
      induction xs with
      | nil => rfl
      | cons y ys ih =>
          have hy : y = 0 := h y (by simp)
          subst hy
          simp only [List.foldl_cons, max_self]
          exact ih (fun z hz => h z (by
            rcases List.mem_cons.mp hz with rfl | hz
            · simp
            · simp [List.mem_cons.mpr (Or.inr hz)]))

theorem mapM_option_length {α β : Type} (f : α → Option β) :
    ∀ (l : List α) (l2 : List β), l.mapM f = some l2 → l2.length = l.length := by
  intro l
  induction l with
  | nil =>
      intro l2 h
      simp only [List.mapM_nil, pure, Option.some.injEq] at h
      subst h; rfl
  | cons a as ih =>
      intro l2 h
      rw [List.mapM_cons] at h
      cases hfa : f a with
      | none => rw [hfa] at h; simp at h
      | some b =>
          rw [hfa] at h
          cases hmm : as.mapM f with
          | none => rw [hmm] at h; simp at h
          | some bs =>
              rw [hmm] at h
              simp at h
              subst h
              simp [ih bs hmm]

theorem foldl_fitStep_toks_length (env : TextEnv) :
    ∀ (pages : List String) (acc : FitAcc),
      ((pages.foldl (fitStep env) acc).toks).length = acc.toks.length + pages.length := by
  intro pages
  induction pages with
  | nil => intro acc; simp
  | cons p ps ih =>
      intro acc
      simp only [List.foldl_cons, ih, fitStep, List.length_append]
      simp
      omega

theorem fit_toks_length (env : TextEnv) (st : BM25State) (pages : List String) :
    ((fit env st pages).2).length = pages.length := by
  simp only [fit]
  rw [foldl_fitStep_toks_length]
  simp

theorem rankScores_length (env : TextEnv) (st : BM25State) (pages : List String)
    (query : String) (sc : List ℚ) (hsc : rankScores env st pages query = some sc) :
    sc.length = pages.length := by
  unfold rankScores rankCompute at hsc
  have h := mapM_option_length _ _ _ hsc
  rw [h, List.enum_length, fit_toks_length]

/-! ### Claim C4 (corrected): shape of the ranking result -/

-- C4 counterexample: the claim quantifies over every corpus and query,
-- but on a corpus whose pages all tokenize to zero terms `rank_pages`
-- raises ZeroDivisionError (modelled as `none`) instead of returning a
-- ranked list.
unseal Rat.add Rat.sub Rat.mul Rat.inv in
theorem C4_claim_counterexample :
    (rank_pages env0 st0 ["a", "b c"] "qq" none).2 = none := by decide

/-- C4 as amended: whenever `rank_pages` completes without raising
(equivalently, some page tokenizes to at least one term, so the average
document length is nonzero), the result is a duplicate-free subset of
range(len(pages)) sorted by descending BM25+ score in which every
retained page scores strictly above max(scores) * 0.1; on an empty corpus
the result is []; if every page scores 0 the result is empty. -/
theorem C4_rank_pages_shape (env : TextEnv) (st : BM25State) (pages : List String)
    (query : String) (k : Option ℕ) (r : List ℕ) (sc : List ℚ)
    (hr : (rank_pages env st pages query k).2 = some r)
    (hsc : rankScores env st pages query = some sc) :
    r.Nodup ∧ (∀ i ∈ r, i < pages.length) ∧
    r.Pairwise (fun i j => sc.getD j 0 ≤ sc.getD i 0) ∧
    (∀ i ∈ r, listMaxQ sc * (1/10) < sc.getD i 0) ∧
    (pages = [] → r = []) ∧
    ((∀ x ∈ sc, x = 0) → r = []) := by
  by_cases hp : pages = []
  · subst hp
    simp only [rank_pages, if_true] at hr
    simp only [Option.some.injEq] at hr
    subst hr
    simp
  · have hlen := rankScores_length env st pages query sc hsc
    have hsc' : (rankCompute env st pages query).2 = some sc := hsc
    simp only [rank_pages, hp, if_false, hsc'] at hr
    have hknodup : ((argsortDesc sc).filter
        (fun idx => (if sc = [] then (0:ℚ) else listMaxQ sc * (1/10)) < sc.getD idx 0)).Nodup :=
      (argsortDesc_nodup sc).filter _
    have hkmem : ∀ i ∈ (argsortDesc sc).filter
        (fun idx => (if sc = [] then (0:ℚ) else listMaxQ sc * (1/10)) < sc.getD idx 0),
        i < pages.length := by
      intro i hi
      exact hlen ▸ argsortDesc_mem sc i (List.mem_of_mem_filter hi)
    have hksorted : ((argsortDesc sc).filter
        (fun idx => (if sc = [] then (0:ℚ) else listMaxQ sc * (1/10)) < sc.getD idx 0)).Pairwise
        (fun i j => sc.getD j 0 ≤ sc.getD i 0) :=
      (argsortDesc_sorted sc).filter _
    have hkthr : ∀ i ∈ (argsortDesc sc).filter
        (fun idx => (if sc = [] then (0:ℚ) else listMaxQ sc * (1/10)) < sc.getD idx 0),
        listMaxQ sc * (1/10) < sc.getD i 0 := by
      intro i hi
      have h2 := List.of_mem_filter hi
      by_cases hsc0 : sc = []
      · exfalso
        have hilt := argsortDesc_mem sc i (List.mem_of_mem_filter hi)
        rw [hsc0] at hilt
        simp at hilt
      · rw [if_neg hsc0] at h2
        exact of_decide_eq_true h2
    have hkzero : (∀ x ∈ sc, x = 0) → (argsortDesc sc).filter
        (fun idx => (if sc = [] then (0:ℚ) else listMaxQ sc * (1/10)) < sc.getD idx 0) = [] := by
      intro hz
      rw [List.filter_eq_nil_iff]
      intro i hi
      have hilt := argsortDesc_mem sc i hi
      have hzi : sc.getD i 0 = 0 := by
        rw [List.getD_eq_getElem _ _ hilt]
        exact hz _ (List.getElem_mem _)
      simp only [hzi, decide_eq_true_eq]
      by_cases hsc0 : sc = []
      · rw [if_pos hsc0]; norm_num
      · rw [if_neg hsc0, listMaxQ_all_zero sc hz]; norm_num
    rcases k with _ | k2
    · dsimp only at hr
      simp only [Option.some.injEq] at hr
      subst hr
      exact ⟨hknodup, hkmem, hksorted, hkthr, fun h => absurd h hp, hkzero⟩
    · dsimp only at hr
      by_cases hk : k2 < ((argsortDesc sc).filter
        (fun idx => (if sc = [] then (0:ℚ) else listMaxQ sc * (1/10)) < sc.getD idx 0)).length
      · rw [if_pos hk] at hr
        simp only [Option.some.injEq] at hr
        subst hr
        refine ⟨hknodup.sublist (List.take_sublist _ _),
          fun i hi => hkmem i (List.take_subset _ _ hi),
          hksorted.sublist (List.take_sublist _ _),
          fun i hi => hkthr i (List.take_subset _ _ hi),
          fun h => absurd h hp,
          fun hz => by rw [hkzero hz]; simp⟩
      · rw [if_neg hk] at hr
        simp only [Option.some.injEq] at hr
        subst hr
        exact ⟨hknodup, hkmem, hksorted, hkthr, fun h => absurd h hp, hkzero⟩

unseal Rat.add Rat.sub Rat.mul Rat.inv in
theorem C4_rank_pages_shape_witness :
    ([1, 0] : List ℕ).Nodup ∧
    (∀ i ∈ ([1, 0] : List ℕ), i < (["zz", "qq"] : List String).length) ∧
    ([1, 0] : List ℕ).Pairwise
      (fun i j => ([6/5, 12/5] : List ℚ).getD j 0 ≤ ([6/5, 12/5] : List ℚ).getD i 0) ∧
    (∀ i ∈ ([1, 0] : List ℕ), listMaxQ [6/5, 12/5] * (1/10) < ([6/5, 12/5] : List ℚ).getD i 0) ∧
    ((["zz", "qq"] : List String) = [] → ([1, 0] : List ℕ) = []) ∧
    ((∀ x ∈ ([6/5, 12/5] : List ℚ), x = 0) → ([1, 0] : List ℕ) = []) :=
  C4_rank_pages_shape env0 st0 ["zz", "qq"] "qq" none [1, 0] [6/5, 12/5]
    (by decide) (by decide)

/-! ### Claim C9: BM25+ score monotone in term frequency -/

theorem tfFrac_mono (k1 K : ℚ) (m m2 : ℕ) (hk1 : 0 ≤ k1) (hK : 0 ≤ K) (hm : m ≤ m2) :
    ((m : ℚ) * (k1 + 1)) / ((m : ℚ) + K) ≤ ((m2 : ℚ) * (k1 + 1)) / ((m2 : ℚ) + K) := by
  rcases Nat.eq_zero_or_pos m2 with h0 | hpos
  · have hm0 : m = 0 := by omega
    subst h0; subst hm0
    exact le_refl _
  · by_cases hm0 : m = 0
    · subst hm0
      simp only [Nat.cast_zero, zero_mul, zero_add, zero_div]
      have h2 : (0 : ℚ) < (m2 : ℚ) + K := by
        have : (1 : ℚ) ≤ (m2 : ℚ) := by exact_mod_cast hpos
        linarith
      positivity
    · have hmq : (0 : ℚ) < (m : ℚ) := by
        have : (1 : ℚ) ≤ (m : ℚ) := by exact_mod_cast Nat.pos_of_ne_zero hm0
        linarith
      have hmq2 : (0 : ℚ) < (m2 : ℚ) := by
        have : (1 : ℚ) ≤ (m2 : ℚ) := by exact_mod_cast hpos
        linarith
      have hle : (m : ℚ) ≤ (m2 : ℚ) := by exact_mod_cast hm
      rw [div_le_div_iff₀ (by linarith) (by linarith)]
      nlinarith [mul_nonneg hK (sub_nonneg.mpr hle)]

theorem pageScoreCore_mono (k1 b delta : ℚ) (idf : String → Option ℚ) (tf tf2 : String → ℕ)
    (norm : ℚ) (qts : List String) (t : String)
    (hk1 : 0 ≤ k1) (hb0 : 0 ≤ b) (hb1 : b ≤ 1) (hd : 0 ≤ delta) (hnorm : 0 ≤ norm)
    (hidf : ∀ u, 0 ≤ (idf u).getD 0)
    (hcount : ∀ u, u ≠ t → tf2 u = tf u) (hmono : tf t ≤ tf2 t) :
    pageScoreCore k1 b delta idf tf norm qts ≤ pageScoreCore k1 b delta idf tf2 norm qts := by
  unfold pageScoreCore
  apply List.sum_le_sum
  intro u hu
  by_cases hut : u = t
  · subst hut
    cases hidfu : idf u with
    | none => simp
    | some v =>
        have hv : 0 ≤ v := by
          have h2 := hidf u
          rw [hidfu] at h2
          simpa using h2
        have hK : 0 ≤ k1 * (1 - b + b * norm) := by
          have h3 : 0 ≤ 1 - b + b * norm := by nlinarith
          exact mul_nonneg hk1 h3
        have hg := tfFrac_mono k1 (k1 * (1 - b + b * norm)) (tf u) (tf2 u) hk1 hK hmono
        simp only [if_pos hu]
        have hstep : v * (((tf u : ℚ) * (k1 + 1)) / ((tf u : ℚ) + k1 * (1 - b + b * norm)) + delta) ≤
            v * (((tf2 u : ℚ) * (k1 + 1)) / ((tf2 u : ℚ) + k1 * (1 - b + b * norm)) + delta) :=
          mul_le_mul_of_nonneg_left (add_le_add_right hg delta) hv
        have hstep2 := mul_le_mul_of_nonneg_right hstep (by norm_num : (0:ℚ) ≤ 6/5)
        exact hstep2
  · rw [hcount u hut]

/-- C9: with the index statistics (IDF table, document lengths, average
length) held fixed and the ranker parameters in their sane ranges
(k1 at least 0, b in [0,1], delta at least 0, positive average length,
nonnegative IDF values, as the log formula produces), the page score of
`_calculate_page_score` is monotone non-decreasing in the frequency of
any query term: a page containing a query term never scores below an
otherwise-identical page (same length statistics, same other term
counts) lacking that term. -/
theorem C9_page_score_monotone_tf (st : BM25State) (query_terms : List String) (t : String)
    (pt pt2 : List String) (i : ℕ) (sc sc2 : ℚ)
    (hsc : calculate_page_score st pt query_terms i = some sc)
    (hsc2 : calculate_page_score st pt2 query_terms i = some sc2)
    (hk1 : 0 ≤ st.k1) (hb0 : 0 ≤ st.b) (hb1 : st.b ≤ 1) (hd : 0 ≤ st.delta)
    (havg : 0 < st.avg_doc_len)
    (hidf : ∀ u, 0 ≤ (st.idf u).getD 0)
    (hcount : ∀ u, u ≠ t → pt2.count u = pt.count u)
    (hmono : pt.count t ≤ pt2.count t) :
    sc ≤ sc2 := by
  unfold calculate_page_score at hsc hsc2
  rw [if_neg (ne_of_gt havg)] at hsc hsc2
  simp only [Option.some.injEq] at hsc hsc2
  subst hsc; subst hsc2
  apply pageScoreCore_mono st.k1 st.b st.delta st.idf (termFreqs pt) (termFreqs pt2) _
    query_terms t hk1 hb0 hb1 hd _ hidf hcount hmono
  positivity

unseal Rat.add Rat.sub Rat.mul Rat.inv in
theorem C9_page_score_monotone_tf_witness : (6/5 : ℚ) ≤ 294/145 :=
  C9_page_score_monotone_tf st9 ["aa"] "aa" [] ["aa"] 0 (6/5) (294/145)
    (by decide) (by decide) (by decide) (by decide) (by decide) (by decide)
    (by decide)
    (fun u => by by_cases h : u = "aa" <;> simp [st9, h])
    (fun u hu => by
      have hbe : ("aa" == u) = false := beq_eq_false_iff_ne.mpr (Ne.symm hu)
      simp [List.count_cons, List.count_nil, hbe])
    (by decide)
